import Mathlib

/-!
Verification of the nmrfit peak-fitting engine against its design
specification.  The Python sources are shallowly embedded: NumPy arrays
become `List ℝ` (or `List ℚ` for the purely arithmetic area-fraction
routine), scalar float arithmetic becomes exact real arithmetic, and the
SciPy quadrature over `(0, ∞)` becomes the Bochner integral over
`Set.Ioi 0`.  Definitions translate the source files
(`NMRfit_module.py`, `NMRfit.py`, `nmrfit/core.py`,
`package/containers.py`); definitions whose Python source is absent from
the repository snapshot are modelled from the specification text and say
so in their doc comment.
-/

open Real MeasureTheory

/-! ## Lineshape model (`NMRfit_module.py`: `voigt_1D`, `kk_equation`,
`kk_relation`) -/

/-- `voigt_1D(x, r, yOff, sigma, mu, a)` from `NMRfit_module.py` lines
112-119: pseudo-Voigt profile, a mixture of a Lorentzian `L` and a
Gaussian `G` plus the baseline offset `yOff`. -/
noncomputable def voigt_1D (x r yOff sigma mu a : ℝ) : ℝ :=
  let L := (2 / (Real.pi * sigma)) * 1 / (1 + ((x - mu) / (0.5 * sigma)) ^ 2)
  let G := (2 / sigma) * Real.sqrt (Real.log 2 / Real.pi) *
    Real.exp (-((x - mu) / (sigma / (2 * Real.sqrt (Real.log 2)))) ^ 2)
  yOff + a * (r * L + (1 - r) * G)

/-- The lineshape exactly as the specification writes it (spec §4.1):
`L(x) = (2/(π·σ))·1/(1+((x-μ)/(0.5σ))²)`,
`G(x) = (2/σ)·sqrt(ln2/π)·exp(-((x-μ)/(σ/(2·sqrt(ln2))))²)`,
`V(x) = y_offset + a·(r·L(x) + (1-r)·G(x))`.  Stated separately from
`voigt_1D` so that the code/spec agreement is a theorem. -/
noncomputable def voigt_spec (x r yOff sigma mu a : ℝ) : ℝ :=
  yOff + a * (r * ((2 / (Real.pi * sigma)) * 1 / (1 + ((x - mu) / (0.5 * sigma)) ^ 2)) +
    (1 - r) * ((2 / sigma) * Real.sqrt (Real.log 2 / Real.pi) *
      Real.exp (-((x - mu) / (sigma / (2 * Real.sqrt (Real.log 2)))) ^ 2)))

/-- `kk_equation(x, r, yOff, sigma, mu, a, w)` from `NMRfit_module.py`
lines 122-136: the integrand of the Kramers-Kronig relation, arranged so
the singularity at `x = 0` is accounted for; `V1` is the lineshape at
`x + w` and `V2` the lineshape at `-x + w`. -/
noncomputable def kk_equation (x r yOff sigma mu a w : ℝ) : ℝ :=
  let L1 := (2 / (Real.pi * sigma)) * 1 / (1 + ((x + w - mu) / (0.5 * sigma)) ^ 2)
  let G1 := (2 / sigma) * Real.sqrt (Real.log 2 / Real.pi) *
    Real.exp (-((x + w - mu) / (sigma / (2 * Real.sqrt (Real.log 2)))) ^ 2)
  let V1 := yOff + a * (r * L1 + (1 - r) * G1)
  let L2 := (2 / (Real.pi * sigma)) * 1 / (1 + ((-x + w - mu) / (0.5 * sigma)) ^ 2)
  let G2 := (2 / sigma) * Real.sqrt (Real.log 2 / Real.pi) *
    Real.exp (-((-x + w - mu) / (sigma / (2 * Real.sqrt (Real.log 2)))) ^ 2)
  let V2 := yOff + a * (r * L2 + (1 - r) * G2)
  1 / x * (V2 - V1)

/-- `kk_relation(w, r, yOff, sigma, mu, a)` from `NMRfit_module.py` lines
139-146: `scipy.integrate.quad(kk_equation, 0, inf, ...)` divided by π.
The quadrature is idealised as the integral over `Set.Ioi 0`. -/
noncomputable def kk_relation (w r yOff sigma mu a : ℝ) : ℝ :=
  (∫ x in Set.Ioi (0 : ℝ), kk_equation x r yOff sigma mu a w) / Real.pi

/-- The integrand the specification ascribes to the Kramers-Kronig
relation: `(V(w+ω) - V(w-ω))/ω` (spec §4.1).  Stated from the spec's
words, to be compared with `kk_equation`. -/
noncomputable def kk_integrand_claim (w r yOff sigma mu a ω : ℝ) : ℝ :=
  (voigt_1D (w + ω) r yOff sigma mu a - voigt_1D (w - ω) r yOff sigma mu a) / ω

/-! ## Phase transform (`NMRfit_module.py`: `shift_phase`, and the inverse
rotation in `generate_result` lines 71-72) -/

/-- `shift_phase(u, v, theta)` from `NMRfit_module.py` lines 322-325,
per sample: `V = u·cosθ - v·sinθ`, `I = u·sinθ + v·cosθ`. -/
noncomputable def shift_phase (u v theta : ℝ) : ℝ × ℝ :=
  (u * Real.cos theta - v * Real.sin theta, u * Real.sin theta + v * Real.cos theta)

/-- The inverse rotation used by `generate_result` (`NMRfit.py` lines
178-179): `u_fit = V·cosθ + I·sinθ`, `v_fit = -V·sinθ + I·cosθ`. -/
noncomputable def unshift_phase (V I theta : ℝ) : ℝ × ℝ :=
  (V * Real.cos theta + I * Real.sin theta, -V * Real.sin theta + I * Real.cos theta)

/-! ## Area fraction (`nmrfit/core.py` `_calculate_area_fraction`,
`NMRfit.py` `calculate_area_fraction`).  The routine is pure arithmetic
(no transcendental functions), so it is embedded over `ℚ` and stays
executable. -/

/-- Every third element of a list: models the index stride of
`range(5, len(params), 3)` once the first five parameters are dropped. -/
def everyThird : List ℚ → List ℚ
  | [] => []
  | [a] => [a]
  | [a, _] => [a]
  | a :: _ :: _ :: rest => a :: everyThird rest

/-- `calculate_area_fraction` from `NMRfit.py` lines 197-203 (identical to
`nmrfit/core.py` lines 182-195): extract `params[i]` for
`i in range(5, len(params), 3)`, split about the mean into `peaks`
(`>= mean`) and `sats` (`< mean`), return `sats / (peaks + sats)`. -/
def calculate_area_fraction (params : List ℚ) : ℚ :=
  let areas := everyThird (params.drop 5)
  let m := areas.sum / (areas.length : ℚ)
  let peaks := (areas.filter fun a => m ≤ a).sum
  let sats := (areas.filter fun a => a < m).sum
  sats / (peaks + sats)

/-- The per-peak area slots as the specification describes them: "every
third parameter starting at index 5".  Index-based formulation, to be
compared with the recursive extraction inside
`calculate_area_fraction`. -/
def areas_spec (params : List ℚ) : List ℚ :=
  (List.range ((params.length - 3) / 3)).map fun k => params.getD (5 + 3 * k) 0

/-- The area fraction as the specification words it (spec §4.6): partition
the per-peak areas into major (`≥ mean`) and minor (`< mean`) sets and
return `sum(minor) / (sum(major) + sum(minor))`. -/
def area_fraction_spec (params : List ℚ) : ℚ :=
  let areas := areas_spec params
  let m := areas.sum / (areas.length : ℚ)
  let major := (areas.filter fun a => m ≤ a).sum
  let minor := (areas.filter fun a => a < m).sum
  minor / (major + minor)

/-! ## Objective function (`NMRfit_module.py` `objective`, lines
149-196).  Arrays become lists; the per-peak loop becomes a fold over the
parameter triples; the Kramers-Kronig evaluator is a function parameter,
as in the source (`kk`). -/

/-- Chunk the per-peak tail of a parameter vector into
`(sigma, mu, a)` triples, as the loop `for i in range(0, len(x0), 3)`
reads `x0[i], x0[i+1], x0[i+2]`. -/
def triples : List ℝ → List (ℝ × ℝ × ℝ)
  | a :: b :: c :: rest => (a, b, c) :: triples rest
  | _ => []

/-- `V_data = u*np.cos(theta) - v*np.sin(theta)` pointwise. -/
noncomputable def Vrot (u v : List ℝ) (theta : ℝ) : List ℝ :=
  List.zipWith (fun ui vi => ui * Real.cos theta - vi * Real.sin theta) u v

/-- `I_data = u*np.sin(theta) + v*np.cos(theta)` pointwise. -/
noncomputable def Irot (u v : List ℝ) (theta : ℝ) : List ℝ :=
  List.zipWith (fun ui vi => ui * Real.sin theta + vi * Real.cos theta) u v

/-- The value of the summed fit at one frequency: the contribution of
every peak triple added up, starting from zero. -/
noncomputable def vfitPoint (x r yOff : ℝ) (ps : List (ℝ × ℝ × ℝ)) : ℝ :=
  (ps.map fun t => voigt_1D x r yOff t.1 t.2.1 t.2.2).sum

/-- `V_fit` over the whole frequency axis: `np.zeros_like(w)` plus
`voigt_1D(w, r, yOff, sigma, mu, a)` for every peak triple. -/
noncomputable def vfitSum (w : List ℝ) (r yOff : ℝ) (ps : List (ℝ × ℝ × ℝ)) : List ℝ :=
  w.map fun x => vfitPoint x r yOff ps

/-- `I_fit` over the whole frequency axis, built from the supplied
Kramers-Kronig evaluator `kk` exactly as `V_fit` is from `voigt_1D`. -/
noncomputable def ifitSum (w : List ℝ) (kk : ℝ → ℝ → ℝ → ℝ → ℝ → ℝ → ℝ)
    (r yOff : ℝ) (ps : List (ℝ × ℝ × ℝ)) : List ℝ :=
  w.map fun x => (ps.map fun t => kk x r yOff t.1 t.2.1 t.2.2).sum

/-- `np.square(d - f).sum()` over two equal-length arrays. -/
noncomputable def ssq (d f : List ℝ) : ℝ :=
  (List.zipWith (fun di fi => (di - fi) ^ 2) d f).sum

/-- A weight entry's region: the string `'all'` or a `(lo, hi)` pair. -/
inductive WRegion where
  | all : WRegion
  | between : ℝ → ℝ → WRegion

/-- One weighted residual contribution: for `'all'`, the full sum of
squares times the weight; for bounds, the sum of squares restricted to
indices with `lo < w_i < hi` (`np.where((w > bounds[0]) & (w < bounds[1]))`)
times the weight. -/
noncomputable def wContrib (w d f : List ℝ) (q : WRegion × ℝ) : ℝ :=
  match q.1 with
  | WRegion.all => ssq d f * q.2
  | WRegion.between lo hi =>
      (List.zipWith (fun wi p => if lo < wi ∧ wi < hi then (p.1 - p.2) ^ 2 else 0)
        w (List.zipWith Prod.mk d f)).sum * q.2

/-- `objective(x0, w, u, v, kk, weights, fitIm)` from `NMRfit_module.py`
lines 149-196: rotate the data by `theta = x0[0]`, sum the per-peak
lineshapes into `V_fit` (and `I_fit` through `kk` when `fitIm`), then
return the unweighted sum of squared residuals when `weights is None`,
the accumulated per-region weighted residuals otherwise, averaging the
real and imaginary residuals when `fitIm`. -/
noncomputable def objective (x0 w u v : List ℝ) (kk : ℝ → ℝ → ℝ → ℝ → ℝ → ℝ → ℝ)
    (weights : Option (List (WRegion × ℝ))) (fitIm : Bool) : ℝ :=
  let theta := x0.getD 0 0
  let r := x0.getD 1 0
  let yOff := x0.getD 2 0
  let ps := triples (x0.drop 3)
  let V_data := Vrot u v theta
  let V_fit := vfitSum w r yOff ps
  let I_data := Irot u v theta
  let I_fit := ifitSum w kk r yOff ps
  let V_residual :=
    match weights with
    | none => ssq V_data V_fit
    | some l => l.foldl (fun acc q => acc + wContrib w V_data V_fit q) 0
  let I_residual :=
    match weights with
    | none => ssq I_data I_fit
    | some l => l.foldl (fun acc q => acc + wContrib w I_data I_fit q) 0
  if fitIm then (V_residual + I_residual) / 2 else V_residual

/-! ## Brute-force phase estimator (`package/containers.py`
`Data.brute_phase`, lines 87-99). -/

/-- Modelled from the spec: `package.proc_autophase.ps2` is not among the
repository's source files (only its caller `Data.brute_phase` is).  Per
spec §4.2, the estimator "applies the forward transform with zero
baseline", so `ps2(u, v, theta, 0)` is the forward phase rotation
`V = u·cosθ - v·sinθ`, `I = u·sinθ + v·cosθ` applied pointwise; the
fourth (first-order) argument is zero at the only call site and is
ignored here. -/
noncomputable def ps2 (u v : List ℝ) (p0 p1 : ℝ) : List ℝ × List ℝ :=
  (List.zipWith (fun ui vi => ui * Real.cos p0 - vi * Real.sin p0) u v,
   List.zipWith (fun ui vi => ui * Real.sin p0 + vi * Real.cos p0) u v)

/-- The scan error at one angle: `(V[0] - V[-1])**2` for
`V, I = ps2(u, v, theta, 0)`. -/
noncomputable def bruteErr (u v : List ℝ) (theta : ℝ) : ℝ :=
  ((ps2 u v theta 0).1.headD 0 - (ps2 u v theta 0).1.getLastD 0) ^ 2

/-- The loop of `brute_phase`: carry the best `(theta, error)` so far
(`none` plays the role of the initial `bestError = np.inf`, which every
real error beats), updating only on a strict improvement so that ties
keep the earliest angle. -/
noncomputable def scanBest (err : ℝ → ℝ) : List ℝ → Option (ℝ × ℝ) → Option (ℝ × ℝ)
  | [], best => best
  | theta :: rest, none => scanBest err rest (some (theta, err theta))
  | theta :: rest, some b =>
      if err theta < b.2 then scanBest err rest (some (theta, err theta))
      else scanBest err rest (some b)

/-- The scanned angles `np.arange(-np.pi, np.pi, np.pi/360)`:
`-π + k·(π/360)` for `k = 0, …, 719`. -/
noncomputable def brute_thetas : List ℝ :=
  (List.range 720).map fun (k : ℕ) => -Real.pi + (k : ℝ) * (Real.pi / 360)

/-- The angle of the best `(theta, error)` pair; `0` for the (unreached)
empty scan, matching the initialisation `bestTheta = 0`. -/
noncomputable def bestTheta : Option (ℝ × ℝ) → ℝ
  | some b => b.1
  | none => 0

/-- `Data.brute_phase` from `package/containers.py` lines 87-99 at the
default step `π/360`: scan the angles, track the best error, return the
best angle. -/
noncomputable def brute_phase (u v : List ℝ) : ℝ :=
  bestTheta (scanBest (bruteErr u v) brute_thetas none)

/-! ## Weight field (`nmrfit/core.py` `FitUtility._compute_weights`,
lines 94-127) and the `fit` driver (`nmrfit/core.py` lines 71-92). -/

/-- A region-of-interest peak as the weight builder reads it: frequency
`bounds` and a `height`. -/
structure Peak where
  bounds : ℝ × ℝ
  height : ℝ

/-- First index of the minimal `|w_i - b|`, i.e.
`np.argmin(np.abs(w - b))` (NumPy's argmin returns the first minimiser). -/
noncomputable def nearestIdxAux (b : ℝ) : List ℝ → ℕ → ℕ × ℝ → ℕ × ℝ
  | [], _, best => best
  | x :: rest, i, best =>
      if |x - b| < best.2 then nearestIdxAux b rest (i + 1) (i, |x - b|)
      else nearestIdxAux b rest (i + 1) best

/-- `np.argmin(np.abs(w - b))` over a list. -/
noncomputable def nearestIdx (w : List ℝ) (b : ℝ) : ℕ :=
  match w with
  | [] => 0
  | x :: rest => (nearestIdxAux b rest 1 (0, |x - b|)).1

/-- The slice assignment `weights[l:r+1] = val`, index-tracked. -/
def setRangeAux (v : ℝ) (l r : ℕ) : List ℝ → ℕ → List ℝ
  | [], _ => []
  | x :: xs, j => (if l ≤ j ∧ j ≤ r then v else x) :: setRangeAux v l r xs (j + 1)

/-- `weights[l:r+1] = val` on a list of weights. -/
def setRange (ws : List ℝ) (l r : ℕ) (v : ℝ) : List ℝ :=
  setRangeAux v l r ws 0

/-- The weight array of `_compute_weights` before smoothing: default
`0.1` everywhere, then for each peak the nearest-index bracket of its
bounds (swapped if inverted) is set to
`(biggest/|height|) ** expon`, where `biggest` is the largest absolute
peak height. -/
noncomputable def compute_weights_raw (w : List ℝ) (peaks : List Peak) (expon : ℝ) : List ℝ :=
  let biggest := (peaks.map fun p => |p.height|).foldr max 0
  peaks.foldl
    (fun ws p =>
      setRange ws
        (min (nearestIdx w p.bounds.1) (nearestIdx w p.bounds.2))
        (max (nearestIdx w p.bounds.1) (nearestIdx w p.bounds.2))
        ((biggest / |p.height|) ^ expon))
    (List.replicate w.length 0.1)

/-- Modelled from the spec: `equations.laplace1d` is not among the
repository's source files (only its caller `_compute_weights` is).  Per
spec §4.3 it is a small number of relaxation iterations (default 10),
each replacing interior values with a convex combination (mixing factor
1/3) of the value and its neighbours' average, endpoints fixed. -/
noncomputable def laplaceStep (ws : List ℝ) : List ℝ :=
  ws.mapIdx fun j x =>
    if 0 < j ∧ j + 1 < ws.length then
      (1 - 1 / 3) * x + (1 / 3) * ((ws.getD (j - 1) 0 + ws.getD (j + 1) 0) / 2)
    else x

/-- Ten smoothing passes (spec §4.3). -/
noncomputable def laplace1d (ws : List ℝ) : List ℝ :=
  laplaceStep^[10] ws

/-- `_compute_weights`: the raw assignment followed by smoothing. -/
noncomputable def compute_weights (w : List ℝ) (peaks : List Peak) (expon : ℝ) : List ℝ :=
  laplace1d (compute_weights_raw w peaks expon)

/-- The errors `fit` can raise synchronously, all coming from
`_compute_weights` (`nmrfit/core.py` lines 104-118), none from bounds
checking: `np.amax(maxabs)` on a zero-size array when the peak list is
empty, and `np.argmin(np.abs(w - bound))` on an empty `w` when a peak
exists. -/
inductive FitError where
  | amaxEmpty : FitError
  | argminEmpty : FitError

/-- What a call to `FitUtility.fit` can do: invoke the particle-swarm
optimizer (`pyswarm.pso`) with the given bounds and computed weights, or
raise an error first. -/
inductive FitOutcome where
  | psoInvoked (lower upper weights : List ℝ) : FitOutcome
  | raised (e : FitError) : FitOutcome

/-- Whether the call raised before reaching the optimizer. -/
def FitOutcome.isRaised : FitOutcome → Bool
  | FitOutcome.raised _ => true
  | _ => false

namespace FitUtility

/-- `FitUtility.fit` from `nmrfit/core.py` lines 71-92: compute the
weights, then immediately call `pyswarm.pso(equations.objective, lower,
upper, ...)`.  The weight computation raises before the optimizer for an
empty peak list (`np.amax` of the zero-size `maxabs`, line 118; the
per-peak `argmin` loop never runs first) and for an empty spectrum with
at least one peak (`np.argmin` of an empty sequence, line 109).  On
every other input nothing raises: the body contains no validation of
`lower`/`upper` and no other raise, so the optimizer invocation is
produced with the supplied bounds unchanged. -/
noncomputable def fit (w u v : List ℝ) (peaks : List Peak) (lower upper : List ℝ)
    (expon : ℝ) : FitOutcome :=
  match peaks, w with
  | [], _ => FitOutcome.raised FitError.amaxEmpty
  | _ :: _, [] => FitOutcome.raised FitError.argminEmpty
  | p :: ps, x :: xs =>
      FitOutcome.psoInvoked lower upper (compute_weights (x :: xs) (p :: ps) expon)

end FitUtility

/-! ## Theorems -/

/-- Every third element, described by indices: element `k` of
`everyThird l` is `l.getD (3*k) 0`. -/
theorem everyThird_eq_range_map (l : List ℚ) :
    everyThird l = (List.range ((l.length + 2) / 3)).map fun k => l.getD (3 * k) 0 := by
  induction l using everyThird.induct with
  | case1 => simp [everyThird]
  | case2 a => simp [everyThird, List.range_succ]
  | case3 a b => simp [everyThird]; rfl
  | case4 a b c rest ih =>
    show a :: everyThird rest = _
    rw [ih]
    have hlen : (((a :: b :: c :: rest).length + 2) / 3) = (rest.length + 2) / 3 + 1 := by
      simp [List.length_cons]; omega
    rw [hlen, List.range_succ_eq_map]
    simp [List.map_map, Function.comp]
    intro k _
    have h3 : 3 * (k + 1) = 3 * k + 1 + 1 + 1 := by omega
    simp [h3]

/-- Auxiliary: `getD` through `drop`. -/
theorem getD_drop_eq (l : List ℚ) : ∀ (n m : ℕ), (l.drop n).getD m 0 = l.getD (n + m) 0 := by
  induction l with
  | nil => intro n m; simp
  | cons x xs ih =>
    intro n m
    cases n with
    | zero => simp
    | succ n =>
      simp only [List.drop_succ_cons, ih n m, Nat.succ_add, List.getD_cons_succ]

/-- The recursive extraction agrees with the index-based description:
dropping the three global parameters plus the first peak's width/location
slots and striding by three is exactly "every third parameter starting at
index 5". -/
theorem everyThird_drop_eq_areas_spec (params : List ℚ) :
    everyThird (params.drop 5) = areas_spec params := by
  rw [everyThird_eq_range_map, areas_spec]
  have hc : ((params.drop 5).length + 2) / 3 = (params.length - 3) / 3 := by
    simp [List.length_drop]; omega
  rw [hc]
  apply List.map_congr_left
  intro k _
  rw [getD_drop_eq]

/-- Claim C3: the area fraction is computed by taking every third
parameter starting at index 5, splitting about the mean into major
(`≥ mean`) and minor (`< mean`) sets, and returning
`sum(minor) / (sum(major) + sum(minor))`; for areas
`[10, 10, 10, 1, 1, 1]` the result is `3/33`. -/
theorem area_fraction_matches_spec :
    (∀ params : List ℚ, calculate_area_fraction params = area_fraction_spec params) ∧
    calculate_area_fraction [0, 0, 0, 1, 1, 10, 1, 1, 10, 1, 1, 10,
      1, 1, 1, 1, 1, 1, 1, 1, 1] = 3 / 33 := by
  constructor
  · intro params
    simp only [calculate_area_fraction, area_fraction_spec, everyThird_drop_eq_areas_spec]
  · norm_num [calculate_area_fraction, everyThird, List.filter]

/-- Claim C10: when every per-peak area slot holds the same value and
their sum is nonzero, the minor set is empty, so the area fraction is
exactly 0 (and the computation is total: no exception is possible in the
embedding). -/
theorem area_fraction_equal_areas (params : List ℚ) (c : ℚ)
    (hall : ∀ a ∈ everyThird (params.drop 5), a = c)
    (hsum : (everyThird (params.drop 5)).sum ≠ 0) :
    calculate_area_fraction params = 0 := by
  have hne : everyThird (params.drop 5) ≠ [] := by
    intro h
    rw [h] at hsum
    simp at hsum
  have hlen : ((everyThird (params.drop 5)).length : ℚ) ≠ 0 := by
    have := List.length_pos.mpr hne
    exact_mod_cast Nat.pos_iff_ne_zero.mp this
  have hs : (everyThird (params.drop 5)).sum = ((everyThird (params.drop 5)).length : ℚ) * c := by
    rw [List.sum_eq_card_nsmul _ c hall]
    simp [nsmul_eq_mul]
  have hm : (everyThird (params.drop 5)).sum / ((everyThird (params.drop 5)).length : ℚ) = c := by
    rw [hs]
    field_simp
  simp only [calculate_area_fraction, hm]
  have hfilter : ((everyThird (params.drop 5)).filter fun a => a < c) = [] := by
    rw [List.filter_eq_nil_iff]
    intro a hmem
    simp [hall a hmem]
  rw [hfilter]
  simp

/-- Witness for C10 at a concrete input: two peak triples, both with area
slot 2. -/
theorem area_fraction_equal_areas_witness :
    calculate_area_fraction [0, 0, 0, 1, 1, 2, 1, 1, 2] = 0 :=
  area_fraction_equal_areas _ 2 (by norm_num [everyThird]) (by norm_num [everyThird])

/-- Claim C4: the forward phase rotation followed by the inverse rotation
returns the original `(u, v)` pair, exactly, for every angle. -/
theorem shift_phase_roundtrip (u v theta : ℝ) :
    unshift_phase (shift_phase u v theta).1 (shift_phase u v theta).2 theta = (u, v) := by
  simp only [shift_phase, unshift_phase, Prod.mk.injEq]
  constructor
  · linear_combination u * Real.sin_sq_add_cos_sq theta
  · linear_combination v * Real.sin_sq_add_cos_sq theta

/-- Claim C8: for `sigma ≠ 0` the single-peak lineshape evaluation is
exactly the pseudo-Voigt formula stated in the specification. -/
theorem voigt_matches_spec (x r yOff sigma mu a : ℝ) (hs : sigma ≠ 0) :
    voigt_1D x r yOff sigma mu a = voigt_spec x r yOff sigma mu a := rfl

/-- Witness for C8 at a concrete input with nonzero width. -/
theorem voigt_matches_spec_witness :
    voigt_1D 0 1 0 1 0 1 = voigt_spec 0 1 0 1 0 1 :=
  voigt_matches_spec 0 1 0 1 0 1 one_ne_zero

/-- The one raise path for an empty peak list: `np.amax(maxabs)` on a
zero-size array, reached before any bounds are inspected and before the
optimizer. -/
theorem fit_empty_peaks_raises (w u v : List ℝ) (lower upper : List ℝ) (expon : ℝ) :
    FitUtility.fit w u v [] lower upper expon = FitOutcome.raised FitError.amaxEmpty := by
  cases w <;> rfl

/-- The one raise path for an empty spectrum with a peak:
`np.argmin(np.abs(w - bound))` on an empty sequence, again independent of
the bounds. -/
theorem fit_empty_spectrum_raises (u v : List ℝ) (p : Peak) (ps : List Peak)
    (lower upper : List ℝ) (expon : ℝ) :
    FitUtility.fit [] u v (p :: ps) lower upper expon =
      FitOutcome.raised FitError.argminEmpty := rfl

/-- Claim C1 (amended): `FitUtility.fit` performs no validation of
`lower_bounds`/`upper_bounds`: for every call on a non-empty spectrum
with a non-empty peak list — including bound vectors whose length differs
from `3 + 3*len(peaks)` and width slots with non-positive lower bounds —
no error is raised and the particle-swarm invocation is reached with the
supplied bounds unchanged.  (`fit` does raise synchronously for an empty
peak list or an empty spectrum, but those errors come from the weight
computation and never depend on the bounds.) -/
theorem fit_no_bounds_validation (w u v : List ℝ) (peaks : List Peak)
    (lower upper : List ℝ) (expon : ℝ) (hp : peaks ≠ []) (hw : w ≠ []) :
    (FitUtility.fit w u v peaks lower upper expon).isRaised = false ∧
    FitUtility.fit w u v peaks lower upper expon =
      FitOutcome.psoInvoked lower upper (compute_weights w peaks expon) := by
  rcases peaks with _ | ⟨p, ps⟩
  · exact absurd rfl hp
  rcases w with _ | ⟨x, xs⟩
  · exact absurd rfl hw
  exact ⟨rfl, rfl⟩

/-- Witness for C1 (amended) at a concrete input: one peak, one sample,
bounds of mismatched length. -/
theorem fit_no_bounds_validation_witness :
    (FitUtility.fit [0] [1] [0] [(⟨(0, 0), 1⟩ : Peak)] [0, 0] [1, 1] 0.5).isRaised = false ∧
    FitUtility.fit [0] [1] [0] [(⟨(0, 0), 1⟩ : Peak)] [0, 0] [1, 1] 0.5 =
      FitOutcome.psoInvoked [0, 0] [1, 1] (compute_weights [0] [⟨(0, 0), 1⟩] 0.5) :=
  fit_no_bounds_validation [0] [1] [0] [⟨(0, 0), 1⟩] [0, 0] [1, 1] 0.5
    (by simp) (by simp)

/-- Counterexample to claim C1 as stated: with one peak and a one-sample
spectrum, a lower-bounds vector of length 2 ≠ 3 + 3·1 (and, second
conjunct, a correct-length bounds vector whose width slot at index 3 has
lower bound 0 ≤ 0), `fit` does not raise — the particle-swarm call is
still reached. -/
theorem fit_invalid_bounds_reaches_pso :
    (([0, 0] : List ℝ).length ≠ 3 + 3 * ([⟨(0, 0), 1⟩] : List Peak).length ∧
      (FitUtility.fit [0] [1] [0] [⟨(0, 0), 1⟩] [0, 0] [1, 1] 0.5).isRaised = false) ∧
    (([0, 0, 0, 0, 0, 0] : List ℝ).getD 3 0 ≤ 0 ∧
      (FitUtility.fit [0] [1] [0] [⟨(0, 0), 1⟩]
        [0, 0, 0, 0, 0, 0] [1, 1, 1, 1, 1, 1] 0.5).isRaised = false) := by
  refine ⟨⟨by decide, rfl⟩, ⟨?_, rfl⟩⟩
  norm_num [List.getD]

/-- Sums of squared differences are non-negative. -/
theorem ssq_nonneg (d : List ℝ) : ∀ f : List ℝ, 0 ≤ ssq d f := by
  induction d with
  | nil => intro f; simp [ssq]
  | cons x xs ih =>
    intro f
    cases f with
    | nil => simp [ssq]
    | cons y ys =>
      simp only [ssq, List.zipWith_cons_cons, List.sum_cons]
      exact add_nonneg (sq_nonneg _) (ih ys)

/-- The region-restricted sum of squares is non-negative. -/
theorem regionSum_nonneg (lo hi : ℝ) :
    ∀ (w : List ℝ) (pz : List (ℝ × ℝ)),
      0 ≤ (List.zipWith (fun wi p => if lo < wi ∧ wi < hi then (p.1 - p.2) ^ 2 else 0)
        w pz).sum := by
  intro w
  induction w with
  | nil => intro pz; simp
  | cons x xs ih =>
    intro pz
    cases pz with
    | nil => simp
    | cons p ps =>
      simp only [List.zipWith_cons_cons, List.sum_cons]
      refine add_nonneg ?_ (ih ps)
      split
      · exact sq_nonneg _
      · exact le_refl 0

/-- A weight entry with non-negative weight contributes a non-negative
residual. -/
theorem wContrib_nonneg (w d f : List ℝ) (q : WRegion × ℝ) (hq : 0 ≤ q.2) :
    0 ≤ wContrib w d f q := by
  rcases q with ⟨region, wt⟩
  cases region with
  | all => exact mul_nonneg (ssq_nonneg d f) hq
  | between lo hi => exact mul_nonneg (regionSum_nonneg lo hi w _) hq

/-- Accumulating non-negative contributions from a non-negative start
stays non-negative. -/
theorem foldl_wContrib_nonneg (w d f : List ℝ) :
    ∀ (l : List (WRegion × ℝ)) (acc : ℝ), 0 ≤ acc → (∀ q ∈ l, 0 ≤ q.2) →
      0 ≤ l.foldl (fun acc q => acc + wContrib w d f q) acc := by
  intro l
  induction l with
  | nil =>
    intro acc hacc _
    simpa using hacc
  | cons q qs ih =>
    intro acc hacc hql
    simp only [List.foldl_cons]
    refine ih _ (add_nonneg hacc (wContrib_nonneg w d f q (hql q ?_))) ?_
    · simp
    · intro q' hq'
      exact hql q' (by simp [hq'])

/-- Claim C2 (amended): the objective is non-negative whenever every
supplied weight is non-negative (in particular when `weights` is `None`),
and with `weights=None` and `fitIm=False` it equals exactly the unweighted
sum over all samples of `(V_data - V_fit)^2`, with `V_data` the
phase-rotated input and `V_fit` the summed per-peak lineshapes. -/
theorem objective_nonneg_and_unweighted_ssq (x0 w u v : List ℝ)
    (kk : ℝ → ℝ → ℝ → ℝ → ℝ → ℝ → ℝ) (weights : Option (List (WRegion × ℝ)))
    (fitIm : Bool) (hw : ∀ l, weights = some l → ∀ q ∈ l, 0 ≤ q.2) :
    0 ≤ objective x0 w u v kk weights fitIm ∧
    objective x0 w u v kk none false =
      (List.zipWith (fun di fi => (di - fi) ^ 2)
        (List.zipWith (fun ui vi =>
          ui * Real.cos (x0.getD 0 0) - vi * Real.sin (x0.getD 0 0)) u v)
        (w.map fun x =>
          ((triples (x0.drop 3)).map fun t =>
            voigt_1D x (x0.getD 1 0) (x0.getD 2 0) t.1 t.2.1 t.2.2).sum)).sum := by
  constructor
  · rcases weights with _ | l
    · cases fitIm with
      | false =>
        simp only [objective]
        exact ssq_nonneg _ _
      | true =>
        simp only [objective]
        refine div_nonneg (add_nonneg (ssq_nonneg _ _) (ssq_nonneg _ _)) (by norm_num)
    · have hl := hw l rfl
      cases fitIm with
      | false =>
        simp only [objective]
        exact foldl_wContrib_nonneg _ _ _ l 0 le_rfl hl
      | true =>
        simp only [objective]
        refine div_nonneg (add_nonneg ?_ ?_) (by norm_num) <;>
          exact foldl_wContrib_nonneg _ _ _ l 0 le_rfl hl
  · simp only [objective, ssq, Vrot, vfitSum, vfitPoint, Bool.false_eq_true, if_false]

/-- Witness for C2 (amended) at a concrete input with one non-negative
weight entry. -/
theorem objective_nonneg_witness :
    0 ≤ objective [0, 0, 0] [0] [1] [0] (fun _ _ _ _ _ _ => 0)
      (some [(WRegion.all, 1)]) false :=
  (objective_nonneg_and_unweighted_ssq [0, 0, 0] [0] [1] [0] (fun _ _ _ _ _ _ => 0)
    (some [(WRegion.all, 1)]) false
    (by
      intro l hl q hq
      injection hl with h
      subst h
      simp at hq
      subst hq
      norm_num)).1

/-- Counterexample to claim C2 as stated: a weights argument containing a
negative weight makes the objective negative. -/
theorem objective_negative_weight_counterexample :
    objective [0, 0, 0] [0] [1] [0] (fun _ _ _ _ _ _ => 0)
      (some [(WRegion.all, -1)]) false < 0 := by
  simp [objective, Vrot, vfitSum, vfitPoint, triples, ssq, wContrib]

/-- `kk_equation` written through the lineshape: it is
`(V(w-x) - V(w+x))/x`. -/
theorem kk_equation_eq_voigt (x r yOff sigma mu a w : ℝ) :
    kk_equation x r yOff sigma mu a w =
      (voigt_1D (w - x) r yOff sigma mu a - voigt_1D (w + x) r yOff sigma mu a) / x := by
  simp only [kk_equation, voigt_1D]
  ring_nf

/-- Claim C5 (amended): the dispersive contribution equals `(1/π)` times
the integral over `(0, ∞)` of `(V(w-ω) - V(w+ω))/ω` — the sign of the
integrand is the reverse of the claimed `(V(w+ω) - V(w-ω))/ω` — with the
singular `1/ω` factor kept explicit so the removable singularity cancels
inside the difference. -/
theorem kk_relation_matches_integral (w r yOff sigma mu a : ℝ) :
    kk_relation w r yOff sigma mu a =
      (∫ x in Set.Ioi (0 : ℝ),
        (voigt_1D (w - x) r yOff sigma mu a - voigt_1D (w + x) r yOff sigma mu a) / x) /
        Real.pi := by
  simp only [kk_relation, kk_equation_eq_voigt]

/-- Counterexample to claim C5 as stated: at
`w = 1, r = 1, yOff = 0, sigma = 2, mu = 0, a = 1, ω = 1` the integrand
the code evaluates differs from the claimed `(V(w+ω) - V(w-ω))/ω`
(they are negatives of one another and nonzero there). -/
theorem kk_integrand_sign_counterexample :
    kk_equation 1 1 0 2 0 1 1 ≠ kk_integrand_claim 1 1 0 2 0 1 1 := by
  have hpi : (0 : ℝ) < Real.pi := Real.pi_pos
  simp only [kk_equation, kk_integrand_claim, voigt_1D]
  norm_num
  intro h
  field_simp at h
  ring_nf at h
  nlinarith [pow_pos hpi 3, pow_pos hpi 2]

/-- The lineshape splits off its baseline: `V(x) = yOff + V₀(x)` where
`V₀` is the same peak with zero offset. -/
theorem voigt_sub_baseline (x r yOff sigma mu a : ℝ) :
    voigt_1D x r yOff sigma mu a = yOff + voigt_1D x r 0 sigma mu a := by
  simp only [voigt_1D]
  ring

/-- Claim C9: the combined fitted curve built by the objective function
(and likewise by result generation, which uses the same per-peak sum)
equals `n·yOff` plus the sum of the baseline-free peak shapes: the
baseline offset is added once per peak. -/
theorem vfit_baseline_per_peak (x r yOff : ℝ) (ps : List (ℝ × ℝ × ℝ)) (w : List ℝ) :
    vfitPoint x r yOff ps =
      (ps.length : ℝ) * yOff + (ps.map fun t => voigt_1D x r 0 t.1 t.2.1 t.2.2).sum ∧
    vfitSum w r yOff ps =
      w.map fun y =>
        (ps.length : ℝ) * yOff + (ps.map fun t => voigt_1D y r 0 t.1 t.2.1 t.2.2).sum := by
  have main : ∀ y : ℝ, vfitPoint y r yOff ps =
      (ps.length : ℝ) * yOff + (ps.map fun t => voigt_1D y r 0 t.1 t.2.1 t.2.2).sum := by
    intro y
    induction ps with
    | nil => simp [vfitPoint]
    | cons t ts ih =>
      simp only [vfitPoint, List.map_cons, List.sum_cons, List.length_cons] at *
      rw [voigt_sub_baseline y r yOff t.1 t.2.1 t.2.2, ih]
      push_cast
      ring
  refine ⟨main x, ?_⟩
  simp only [vfitSum]
  exact List.map_congr_left fun y _ => main y

/-- Every element of a slice assignment is either the assigned value or an
original element. -/
theorem setRangeAux_mem (v : ℝ) (l r : ℕ) :
    ∀ (ws : List ℝ) (j : ℕ) (x : ℝ), x ∈ setRangeAux v l r ws j → x = v ∨ x ∈ ws := by
  intro ws
  induction ws with
  | nil =>
    intro j x h
    simp [setRangeAux] at h
  | cons y ys ih =>
    intro j x h
    simp only [setRangeAux, List.mem_cons] at h
    rcases h with h | h
    · split at h
      · exact Or.inl h
      · refine Or.inr ?_
        rw [h]
        exact List.mem_cons_self y ys
    · rcases ih (j + 1) x h with h' | h'
      · exact Or.inl h'
      · exact Or.inr (List.mem_cons_of_mem y h')

/-- Index-wise description of a slice assignment. -/
theorem setRangeAux_getD (v : ℝ) (l r : ℕ) :
    ∀ (ws : List ℝ) (j k : ℕ), k < ws.length →
      (setRangeAux v l r ws j).getD k 0 =
        if l ≤ j + k ∧ j + k ≤ r then v else ws.getD k 0 := by
  intro ws
  induction ws with
  | nil =>
    intro j k h
    simp at h
  | cons y ys ih =>
    intro j k hk
    cases k with
    | zero => simp [setRangeAux]
    | succ k =>
      simp only [setRangeAux, List.getD_cons_succ]
      rw [ih (j + 1) k (by simpa using hk)]
      have hidx : j + 1 + k = j + (k + 1) := by omega
      rw [hidx]

/-- A `foldr max` starting from `0` is non-negative. -/
theorem foldr_max_nonneg : ∀ l : List ℝ, 0 ≤ l.foldr max 0 := by
  intro l
  induction l with
  | nil => simp
  | cons x xs ih =>
    simp only [List.foldr_cons]
    exact le_max_of_le_right ih

/-- The weight-assignment fold keeps every entry non-negative as long as
every assigned value is non-negative. -/
theorem foldl_setRange_nonneg (f g : Peak → ℕ) (val : Peak → ℝ)
    (hval : ∀ p, 0 ≤ val p) :
    ∀ (peaks : List Peak) (ws : List ℝ), (∀ x ∈ ws, 0 ≤ x) →
      ∀ x ∈ peaks.foldl (fun ws p => setRange ws (f p) (g p) (val p)) ws, 0 ≤ x := by
  intro peaks
  induction peaks with
  | nil =>
    intro ws hws x hx
    simp only [List.foldl_nil] at hx
    exact hws x hx
  | cons p ps ih =>
    intro ws hws x hx
    simp only [List.foldl_cons] at hx
    refine ih _ ?_ x hx
    intro y hy
    rcases setRangeAux_mem (val p) (f p) (g p) ws 0 y hy with rfl | hmem
    · exact hval p
    · exact hws y hmem

/-- Entries of `replicate` lists of `0.1` are non-negative. -/
theorem getD_replicate_pointone : ∀ (n k : ℕ), k < n →
    (List.replicate n (0.1 : ℝ)).getD k 0 = 0.1 := by
  intro n
  induction n with
  | zero =>
    intro k h
    omega
  | succ n ih =>
    intro k hk
    cases k with
    | zero => simp [List.replicate]
    | succ k =>
      simp only [List.replicate, List.getD_cons_succ]
      exact ih k (by omega)

/-- Claim C7: the pre-smoothing weight array is everywhere non-negative
for every spectrum and non-empty peak list; and for a single peak of
nonzero height, every index inside the nearest-index bracket of its
bounds (inclusive, after swapping an inverted bracket) holds
`(biggest/|height|)^expon = 1` while every index outside holds the
default `0.1`. -/
theorem compute_weights_raw_values (w : List ℝ) (peaks : List Peak) (expon : ℝ)
    (p : Peak) (hne : peaks ≠ []) (hp : p.height ≠ 0) :
    (∀ x ∈ compute_weights_raw w peaks expon, 0 ≤ x) ∧
    ∀ j, j < w.length →
      (compute_weights_raw w [p] expon).getD j 0 =
        if min (nearestIdx w p.bounds.1) (nearestIdx w p.bounds.2) ≤ j ∧
            j ≤ max (nearestIdx w p.bounds.1) (nearestIdx w p.bounds.2)
        then 1 else 0.1 := by
  constructor
  · intro x hx
    simp only [compute_weights_raw] at hx
    refine foldl_setRange_nonneg
      (fun q => min (nearestIdx w q.bounds.1) (nearestIdx w q.bounds.2))
      (fun q => max (nearestIdx w q.bounds.1) (nearestIdx w q.bounds.2))
      (fun q => (((peaks.map fun q' => |q'.height|).foldr max 0) / |q.height|) ^ expon)
      (fun q => Real.rpow_nonneg (div_nonneg (foldr_max_nonneg _) (abs_nonneg _)) _)
      peaks _ ?_ x hx
    intro y hy
    rcases List.eq_of_mem_replicate hy with rfl
    norm_num
  · intro j hj
    have hbig : (([p].map fun q => |q.height|).foldr max 0) = |p.height| := by
      simp [max_eq_left (abs_nonneg p.height)]
    have hval : ((([p].map fun q => |q.height|).foldr max 0) / |p.height|) ^ expon = (1 : ℝ) := by
      rw [hbig, div_self (abs_ne_zero.mpr hp), Real.one_rpow]
    simp only [compute_weights_raw, List.foldl_cons, List.foldl_nil, hval, setRange]
    rw [setRangeAux_getD _ _ _ _ 0 j (by simpa using hj)]
    simp only [Nat.zero_add]
    split
    · rfl
    · exact getD_replicate_pointone w.length j hj

/-- Witness for C7 at a concrete input: one peak of height 1 covering a
one-sample spectrum. -/
theorem compute_weights_raw_values_witness :
    (∀ x ∈ compute_weights_raw [0] [(⟨(0, 0), 1⟩ : Peak)] 0.5, 0 ≤ x) ∧
    ∀ j, j < ([0] : List ℝ).length →
      (compute_weights_raw [0] [(⟨(0, 0), 1⟩ : Peak)] 0.5).getD j 0 =
        if min (nearestIdx [0] (⟨(0, 0), 1⟩ : Peak).bounds.1)
              (nearestIdx [0] (⟨(0, 0), 1⟩ : Peak).bounds.2) ≤ j ∧
            j ≤ max (nearestIdx [0] (⟨(0, 0), 1⟩ : Peak).bounds.1)
              (nearestIdx [0] (⟨(0, 0), 1⟩ : Peak).bounds.2)
        then 1 else 0.1 :=
  compute_weights_raw_values [0] [⟨(0, 0), 1⟩] 0.5 ⟨(0, 0), 1⟩ (by simp) one_ne_zero

/-- The scan-loop invariant: started from a pair whose error component is
the error of its angle, `scanBest` returns such a pair that is no worse
than the start, at least as good as every scanned angle, and is either
the start pair itself or an element of the list that strictly improves on
the start and on every angle listed before it. -/
theorem scanBest_some_spec (err : ℝ → ℝ) :
    ∀ (l : List ℝ) (b : ℝ × ℝ), b.2 = err b.1 →
      ∃ b', scanBest err l (some b) = some b' ∧ b'.2 = err b'.1 ∧ b'.2 ≤ b.2 ∧
        (∀ x ∈ l, b'.2 ≤ err x) ∧
        (b' = b ∨ ∃ i : Fin l.length, b'.1 = l.get i ∧ b'.2 < b.2 ∧
          ∀ j : Fin l.length, j.val < i.val → b'.2 < err (l.get j)) := by
  intro l
  induction l with
  | nil =>
    intro b hb
    exact ⟨b, rfl, hb, le_rfl, by simp, Or.inl rfl⟩
  | cons t rest ih =>
    intro b hb
    by_cases h : err t < b.2
    · obtain ⟨b', heq, hcpl, hle, hall, hdisj⟩ := ih (t, err t) rfl
      refine ⟨b', ?_, hcpl, le_of_lt (lt_of_le_of_lt hle h), ?_, Or.inr ?_⟩
      · simpa [scanBest, h] using heq
      · intro x hx
        rcases List.mem_cons.mp hx with rfl | hx'
        · exact hle
        · exact hall x hx'
      · rcases hdisj with rfl | ⟨i, hi1, hi2, hi3⟩
        · refine ⟨⟨0, by simp⟩, rfl, h, ?_⟩
          intro j hj
          exact absurd hj (Nat.not_lt_zero _)
        · refine ⟨⟨i.val + 1, Nat.succ_lt_succ i.isLt⟩, ?_, ?_, ?_⟩
          · simpa using hi1
          · exact lt_trans (by simpa using hi2) h
          · intro j hj
            rcases j with ⟨jv, hjv⟩
            cases jv with
            | zero => simpa using hi2
            | succ k =>
              have hk : k < i.val := Nat.lt_of_succ_lt_succ hj
              have hgk := hi3 ⟨k, Nat.lt_of_succ_lt_succ (by simpa using hjv)⟩ hk
              simpa using hgk
    · obtain ⟨b', heq, hcpl, hle, hall, hdisj⟩ := ih b hb
      have hbt : b.2 ≤ err t := not_lt.mp h
      refine ⟨b', ?_, hcpl, hle, ?_, ?_⟩
      · simpa [scanBest, h] using heq
      · intro x hx
        rcases List.mem_cons.mp hx with rfl | hx'
        · exact le_trans hle hbt
        · exact hall x hx'
      · rcases hdisj with rfl | ⟨i, hi1, hi2, hi3⟩
        · exact Or.inl rfl
        · refine Or.inr ⟨⟨i.val + 1, Nat.succ_lt_succ i.isLt⟩, ?_, hi2, ?_⟩
          · simpa using hi1
          · intro j hj
            rcases j with ⟨jv, hjv⟩
            cases jv with
            | zero => simpa using lt_of_lt_of_le hi2 hbt
            | succ k =>
              have hk : k < i.val := Nat.lt_of_succ_lt_succ hj
              have hgk := hi3 ⟨k, Nat.lt_of_succ_lt_succ (by simpa using hjv)⟩ hk
              simpa using hgk

/-- For a non-empty scan list, the returned angle is the first minimiser
of the error over the list. -/
theorem scanBest_cons_argmin (err : ℝ → ℝ) (t : ℝ) (rest : List ℝ) :
    ∃ i : Fin (t :: rest).length,
      bestTheta (scanBest err (t :: rest) none) = (t :: rest).get i ∧
      (∀ x ∈ t :: rest, err ((t :: rest).get i) ≤ err x) ∧
      ∀ j : Fin (t :: rest).length, j.val < i.val →
        err ((t :: rest).get i) < err ((t :: rest).get j) := by
  have hstep : scanBest err (t :: rest) none = scanBest err rest (some (t, err t)) := rfl
  obtain ⟨b', heq, hcpl, hle, hall, hdisj⟩ := scanBest_some_spec err rest (t, err t) rfl
  rcases hdisj with rfl | ⟨i, hi1, hi2, hi3⟩
  · refine ⟨⟨0, by simp⟩, ?_, ?_, ?_⟩
    · rw [hstep, heq]
      simp [bestTheta]
    · intro x hx
      rcases List.mem_cons.mp hx with rfl | hx'
      · simp
      · have hx2 := hall x hx'
        simpa using hx2
    · intro j hj
      exact absurd hj (Nat.not_lt_zero _)
  · have hgi : (t :: rest).get ⟨i.val + 1, Nat.succ_lt_succ i.isLt⟩ = rest.get i := by
      simp
    refine ⟨⟨i.val + 1, Nat.succ_lt_succ i.isLt⟩, ?_, ?_, ?_⟩
    · rw [hstep, heq, hgi, ← hi1]
      rfl
    · intro x hx
      rw [hgi, ← hi1, ← hcpl]
      rcases List.mem_cons.mp hx with rfl | hx'
      · exact le_of_lt (by simpa using hi2)
      · exact hall x hx'
    · intro j hj
      rw [hgi, ← hi1, ← hcpl]
      rcases j with ⟨jv, hjv⟩
      cases jv with
      | zero => simpa using hi2
      | succ k =>
        have hk : k < i.val := Nat.lt_of_succ_lt_succ hj
        have hgk := hi3 ⟨k, Nat.lt_of_succ_lt_succ (by simpa using hjv)⟩ hk
        simpa using hgk

/-- Every scanned angle lies in `[-π, π)`. -/
theorem brute_thetas_range : ∀ θ ∈ brute_thetas, -Real.pi ≤ θ ∧ θ < Real.pi := by
  intro θ hθ
  rw [brute_thetas] at hθ
  obtain ⟨k, hk, rfl⟩ := List.mem_map.mp hθ
  have hk720 : k < 720 := List.mem_range.mp hk
  have hπ : (0 : ℝ) < Real.pi := Real.pi_pos
  have hk719 : (k : ℝ) ≤ 719 := by
    have hk' : k ≤ 719 := by omega
    exact_mod_cast hk'
  constructor
  · have hnn : 0 ≤ (k : ℝ) * (Real.pi / 360) :=
      mul_nonneg (Nat.cast_nonneg k) (by positivity)
    linarith
  · have h1 : (k : ℝ) * (Real.pi / 360) ≤ 719 * (Real.pi / 360) :=
      mul_le_mul_of_nonneg_right hk719 (by positivity)
    linarith

/-- Claim C6: the brute-force phase estimator scans
`theta = -π + k·(π/360)` for `k < 720` — all angles in `[-π, π)` — and
returns an angle of the scan list that minimises
`(V[0] - V[-1])²` for the zero-baseline forward transform, with ties
resolved in favour of the earliest angle in scan order. -/
theorem brute_phase_first_argmin (u v : List ℝ) :
    (∀ θ ∈ brute_thetas, -Real.pi ≤ θ ∧ θ < Real.pi) ∧
    ∃ i : Fin brute_thetas.length,
      brute_phase u v = brute_thetas.get i ∧
      (∀ θ ∈ brute_thetas, bruteErr u v (brute_thetas.get i) ≤ bruteErr u v θ) ∧
      ∀ j : Fin brute_thetas.length, j.val < i.val →
        bruteErr u v (brute_thetas.get i) < bruteErr u v (brute_thetas.get j) := by
  refine ⟨brute_thetas_range, ?_⟩
  have hlen : brute_thetas.length = 720 := by
    rw [brute_thetas, List.length_map, List.length_range]
  have hne : brute_thetas ≠ [] := by
    intro h
    rw [h] at hlen
    simp at hlen
  obtain ⟨t, rest, hcons⟩ := List.exists_cons_of_ne_nil hne
  simp only [brute_phase]
  rw [hcons]
  exact scanBest_cons_argmin (bruteErr u v) t rest
